import Mathlib

/-!
Shallow embedding of the core utilities of the repository
(functions/src/utils/random.ts, functions/src/utils/lock.ts,
functions/src/utils/integer.ts), with theorems settling the
specification claims about them.

Numbers produced by the random utilities are modelled as exact rationals;
the random byte blocks consumed by them are explicit arguments, so every
embedded function is a deterministic function of its byte input.
-/

namespace CopaCalo

/-! ## random.ts -/

/-- Source: `const LEN = 6` (length of random bytes). -/
def LEN : Nat := 6

/-- Source: `const MAX = 1 << (4 * LEN)`.  The source doc comment calls this
one more than the maximum value represented with `LEN` bytes (which would be
`2 ^ (8 * LEN)`), but the code computes `2 ^ (4 * LEN) = 2 ^ 24`. -/
def MAX : Nat := 2 ^ (4 * LEN)

/-- Source: `b.readUIntBE(0, LEN)`, the big-endian unsigned integer held in a
byte block. -/
def readUIntBE (b : List Nat) : Nat :=
  b.foldl (fun acc x => 256 * acc + x) 0

/-- Source `random()`: reads `LEN` random bytes `b`, interprets them as a
big-endian unsigned integer and divides by `MAX`.  The byte block drawn from
the secure byte source is the explicit argument `b`. -/
def random (b : List Nat) : ℚ :=
  (readUIntBE b : ℚ) / (MAX : ℚ)

/-- Source `randRange(min, max?)`:
`const [start, diff] = (max === undefined) ? [0, min] : [min, max]` followed by
`Math.floor(start + value * diff)` where `value = await random()`. -/
def randRange (minArg : ℚ) (maxArg : Option ℚ) (b : List Nat) : Int :=
  let sd : ℚ × ℚ :=
    match maxArg with
    | none => (0, minArg)
    | some m => (minArg, m)
  ⌊sd.1 + random b * sd.2⌋

/-- The one-argument overload `randRange(max)`. -/
def randRange1 (max : ℚ) (b : List Nat) : Int :=
  randRange max none b

/-- The two-argument overload `randRange(min, max)`. -/
def randRange2 (min max : ℚ) (b : List Nat) : Int :=
  randRange min (some max) b

/-- Source `choose(values)`: returns `values[i]` for `i = await randRange(values.length)`;
an out-of-range index yields no value (JS `undefined`), modelled by `Option`. -/
def choose {T : Type} (values : List T) (b : List Nat) : Option T :=
  let i := randRange1 (values.length : ℚ) b
  if 0 ≤ i then values.get? i.toNat else none

/-- A byte block of `LEN` bytes, all `0xFF`: a possible output of the secure
byte source. -/
def maxBytes : List Nat := List.replicate LEN 255

/-- The byte block `80 00 00 00 00 00`: a possible output of the secure byte
source, read as `2 ^ 47`. -/
def halfBytes : List Nat := [128, 0, 0, 0, 0, 0]

theorem readUIntBE_maxBytes : readUIntBE maxBytes = 2 ^ 48 - 1 := by decide

theorem readUIntBE_halfBytes : readUIntBE halfBytes = 2 ^ 47 := by decide

/-- Claim C1: the claim states `random()` always lies in `[0.0, 1.0)`.  On the
all-`0xFF` byte block the code returns `2 ^ 24 - 2 ^ (-24)`, which is not
below `1`: the divisor `MAX = 1 << (4 * LEN)` is `2 ^ 24`, not `2 ^ 48`, so the
48-bit big-endian integer is divided by far too small a constant. -/
theorem random_exceeds_unit_range :
    random maxBytes = 2 ^ 24 - 1 / 2 ^ 24 ∧ ¬ random maxBytes < 1 := by
  constructor
  · rw [random, readUIntBE_maxBytes, MAX, LEN]
    norm_num
  · rw [random, readUIntBE_maxBytes, MAX, LEN]
    norm_num

/-- Claim C5: the claim states the two-argument `randRange(min, max)` computes
`floor(min + uniform01() * (max - min))`.  The code instead destructures
`[start, diff] = [min, max]` and computes `floor(min + uniform01() * max)`:
on the byte block `80 00 00 00 00 00` with `min = 5`, `max = 10`, the code
returns `83886085` while the claimed formula gives `41943045`.  The
one-argument part of the claim does hold: `randRange(max)` behaves as the
two-argument form with `min = 0` (last conjunct). -/
theorem randRange_formula_mismatch :
    randRange2 5 10 halfBytes = 83886085 ∧
    ⌊(5 : ℚ) + random halfBytes * ((10 : ℚ) - 5)⌋ = 41943045 ∧
    ∀ (max : ℚ) (b : List Nat), randRange1 max b = randRange2 0 max b := by
  refine ⟨?_, ?_, fun max b => rfl⟩
  · show ⌊(5 : ℚ) + random halfBytes * 10⌋ = 83886085
    rw [random, readUIntBE_halfBytes, MAX, LEN, Int.floor_eq_iff]
    norm_num
  · rw [random, readUIntBE_halfBytes, MAX, LEN, Int.floor_eq_iff]
    norm_num

/-- Claim C6: the claim states every successful `randRange(max)` call returns
`v` with `0 <= v < max`.  On the all-`0xFF` byte block, `randRange(2)` returns
`33554431`, far above `max = 2`, because `random()` itself exceeds `1`
(see `random_exceeds_unit_range`). -/
theorem randRange_out_of_range :
    randRange1 2 maxBytes = 33554431 ∧ ¬ randRange1 2 maxBytes < 2 := by
  have h : randRange1 2 maxBytes = 33554431 := by
    show ⌊(0 : ℚ) + random maxBytes * 2⌋ = 33554431
    rw [random, readUIntBE_maxBytes, MAX, LEN, Int.floor_eq_iff]
    norm_num
  refine ⟨h, ?_⟩
  rw [h]
  decide

/-- Claim C8: the claim states `choose([x])` always returns `x`.  On the
all-`0xFF` byte block, the index drawn for the singleton list is `16777215`,
so `choose([42])` reads past the end of the array and produces no value
(JS `undefined`) instead of `42`. -/
theorem choose_singleton_fails :
    randRange1 1 maxBytes = 16777215 ∧ choose [(42 : Nat)] maxBytes = none := by
  have h : randRange1 1 maxBytes = 16777215 := by
    show ⌊(0 : ℚ) + random maxBytes * 1⌋ = 16777215
    rw [random, readUIntBE_maxBytes, MAX, LEN, Int.floor_eq_iff]
    norm_num
  refine ⟨h, ?_⟩
  have hc : choose [(42 : Nat)] maxBytes =
      if 0 ≤ randRange1 1 maxBytes then
        ([(42 : Nat)]).get? (randRange1 1 maxBytes).toNat
      else none := by
    simp [choose]
  rw [hc, h]
  decide

/-! ## lock.ts -/

/-- Source class `Locked<T>`: its `inner` field is either
`{unlocked: false, value}` (modelled `some value`) or `{unlocked: true}`
(modelled `none`). -/
structure Locked (T : Type) where
  inner : Option T

/-- The message of the usage error thrown by `Locked` (source string). -/
def lockedErrMsg : String := "Lock alread unlocked, no value present"

/-- Source getter `Locked.value`: returns the inner value, throwing a usage
error if the guard was already unlocked. -/
def Locked.value {T : Type} (l : Locked T) : Except String T :=
  match l.inner with
  | some v => Except.ok v
  | none => Except.error lockedErrMsg

/-- Source `Locked.unlock()`: first evaluates `this.value` (so an already
unlocked guard throws the same usage error), then fires the unlocker (whose
effect on the owning `Lock` is the `unlockStep` transition below) and replaces
`inner` by `{unlocked: true}`. -/
def Locked.unlock {T : Type} (l : Locked T) : Except String (Locked T) :=
  match l.value with
  | Except.ok _ => Except.ok ⟨none⟩
  | Except.error e => Except.error e

/-- State of one `Lock<T>` under interleaved `lock()` / `unlock()` calls.
Callers are numbered by arrival order (`nextId` is the next fresh number);
`waiting` models the source field `waiting` (queued resolver callbacks, by
caller number); `live` holds the caller numbers whose `Locked` guard has been
created and not yet unlocked; `granted` is the history of guard grants in
order, a ghost variable recording fairness. -/
structure LockState where
  locked : Bool
  waiting : List Nat
  live : List Nat
  granted : List Nat
  nextId : Nat

/-- Source `Lock.lock()`: if `locked`, push the caller's resolver onto
`waiting`; otherwise set `locked = true` and resolve at once with a fresh
guard. -/
def lockStep (s : LockState) : LockState :=
  if s.locked then
    { s with waiting := s.waiting ++ [s.nextId], nextId := s.nextId + 1 }
  else
    { s with locked := true, live := s.live ++ [s.nextId],
             granted := s.granted ++ [s.nextId], nextId := s.nextId + 1 }

/-- Source `Locked.unlock()` followed by the private `Lock.unlock()`: only a
live guard `g` may unlock (unlocking twice throws, modelled by `none`);
`waiting.shift()` then either fully unlocks on an empty queue
(`locked = false`) or transfers the lock to the head waiter, resolving it with
a fresh guard while `locked` stays `true`. -/
def unlockStep (s : LockState) (g : Nat) : Option LockState :=
  if g ∈ s.live then
    match s.waiting with
    | [] => some { s with locked := false, live := s.live.erase g }
    | w :: rest =>
        some { s with waiting := rest, live := s.live.erase g ++ [w], granted := s.granted ++ [w] }
  else
    none

/-- A freshly constructed `Lock` (source constructor: `locked = false`,
`waiting = []`). -/
def initState : LockState :=
  { locked := false, waiting := [], live := [], granted := [], nextId := 0 }

/-- One interleaving step: some caller invokes `lock()`, or the guard `g`
invokes `unlock()`. -/
inductive LockTrans : LockState → LockState → Prop where
  | lock (s : LockState) : LockTrans s (lockStep s)
  | unlock (s : LockState) (g : Nat) (s' : LockState) :
      unlockStep s g = some s' → LockTrans s s'

/-- The states reachable from a fresh `Lock` by any interleaving of calls. -/
inductive Reachable : LockState → Prop where
  | init : Reachable initState
  | step {s s' : LockState} : Reachable s → LockTrans s s' → Reachable s'

/-- Inductive invariant of the lock: either locked with exactly one live
guard, or fully idle; the grant history followed by the queue is strictly
increasing in arrival order and bounded by the next fresh number. -/
def LockInv (s : LockState) : Prop :=
  ((s.locked = true ∧ ∃ g, s.live = [g]) ∨
    (s.locked = false ∧ s.live = [] ∧ s.waiting = [])) ∧
  List.Chain' (· < ·) (s.granted ++ s.waiting) ∧
  ∀ x ∈ s.granted ++ s.waiting, x < s.nextId

theorem chain'_append_singleton {l : List Nat} {a : Nat}
    (h : List.Chain' (· < ·) l) (hb : ∀ x ∈ l, x < a) :
    List.Chain' (· < ·) (l ++ [a]) := by
  rw [List.chain'_append]
  refine ⟨h, List.chain'_singleton a, ?_⟩
  intro x hx y hy
  obtain ⟨hne, rfl⟩ := List.mem_getLast?_eq_getLast hx
  have hxl : l.getLast hne ∈ l := List.getLast_mem hne
  have hya : a = y := by simpa using hy
  rw [← hya]
  exact hb _ hxl

theorem lockInv_init : LockInv initState := by
  refine ⟨Or.inr ⟨rfl, rfl, rfl⟩, ?_, ?_⟩ <;> simp [initState]

theorem lockInv_lockStep (s : LockState) (h : LockInv s) : LockInv (lockStep s) := by
  obtain ⟨hcase, hchain, hbound⟩ := h
  by_cases hl : s.locked
  · rw [lockStep, if_pos hl]
    refine ⟨?_, ?_, ?_⟩
    · left
      refine ⟨hl, ?_⟩
      rcases hcase with ⟨_, hg⟩ | ⟨hf, _, _⟩
      · exact hg
      · rw [hl] at hf; cases hf
    · show List.Chain' (· < ·) (s.granted ++ (s.waiting ++ [s.nextId]))
      rw [← List.append_assoc]
      exact chain'_append_singleton hchain hbound
    · show ∀ x ∈ s.granted ++ (s.waiting ++ [s.nextId]), x < s.nextId + 1
      intro x hx
      rw [← List.append_assoc, List.mem_append] at hx
      rcases hx with hx | hx
      · exact Nat.lt_succ_of_lt (hbound x hx)
      · have hxe : x = s.nextId := by simpa using hx
        omega
  · have hcase' : s.locked = false ∧ s.live = [] ∧ s.waiting = [] := by
      rcases hcase with ⟨ht, _⟩ | h'
      · exact absurd ht hl
      · exact h'
    obtain ⟨hf, hlive, hwait⟩ := hcase'
    rw [lockStep, if_neg hl]
    refine ⟨Or.inl ⟨rfl, s.nextId, ?_⟩, ?_, ?_⟩
    · show s.live ++ [s.nextId] = [s.nextId]
      rw [hlive]
      rfl
    · show List.Chain' (· < ·) ((s.granted ++ [s.nextId]) ++ s.waiting)
      rw [hwait, List.append_nil]
      have hchain' : List.Chain' (· < ·) s.granted := by
        rw [hwait, List.append_nil] at hchain
        exact hchain
      have hbound' : ∀ x ∈ s.granted, x < s.nextId := by
        intro x hx
        exact hbound x (List.mem_append_left _ hx)
      exact chain'_append_singleton hchain' hbound'
    · show ∀ x ∈ (s.granted ++ [s.nextId]) ++ s.waiting, x < s.nextId + 1
      intro x hx
      rw [hwait, List.append_nil, List.mem_append] at hx
      rcases hx with hx | hx
      · exact Nat.lt_succ_of_lt (hbound x (List.mem_append_left _ hx))
      · have hxe : x = s.nextId := by simpa using hx
        omega

theorem lockInv_unlockStep (s : LockState) (g : Nat) (s' : LockState)
    (hstep : unlockStep s g = some s') (h : LockInv s) : LockInv s' := by
  obtain ⟨hcase, hchain, hbound⟩ := h
  rw [unlockStep] at hstep
  by_cases hg : g ∈ s.live
  swap
  · rw [if_neg hg] at hstep
    cases hstep
  rw [if_pos hg] at hstep
  have hlive : ∃ g0, s.live = [g0] := by
    rcases hcase with ⟨_, h2⟩ | ⟨_, h2, _⟩
    · exact h2
    · rw [h2] at hg; cases hg
  obtain ⟨g0, hg0⟩ := hlive
  have hlocked : s.locked = true := by
    rcases hcase with ⟨h1, _⟩ | ⟨_, h2, _⟩
    · exact h1
    · rw [h2] at hg; cases hg
  have hgeq : g = g0 := by
    rw [hg0] at hg
    simpa using hg
  have herase : s.live.erase g = [] := by
    rw [hg0, hgeq]
    simp
  cases hw : s.waiting with
  | nil =>
    rw [hw] at hstep
    injection hstep with hstep
    subst hstep
    refine ⟨Or.inr ⟨rfl, herase, rfl⟩, ?_, ?_⟩
    · show List.Chain' (· < ·) (s.granted ++ ([] : List Nat))
      rw [← hw]
      exact hchain
    · show ∀ x ∈ s.granted ++ ([] : List Nat), x < s.nextId
      rw [← hw]
      exact hbound
  | cons w rest =>
    rw [hw] at hstep
    injection hstep with hstep
    subst hstep
    refine ⟨Or.inl ⟨hlocked, w, ?_⟩, ?_, ?_⟩
    · show s.live.erase g ++ [w] = [w]
      rw [herase]
      rfl
    · show List.Chain' (· < ·) ((s.granted ++ [w]) ++ rest)
      rw [List.append_assoc, List.singleton_append, ← hw]
      exact hchain
    · show ∀ x ∈ (s.granted ++ [w]) ++ rest, x < s.nextId
      rw [List.append_assoc, List.singleton_append, ← hw]
      exact hbound

theorem lockInv_reachable (s : LockState) (h : Reachable s) : LockInv s := by
  induction h with
  | init => exact lockInv_init
  | step _ ht ih =>
    cases ht with
    | lock => exact lockInv_lockStep _ ih
    | unlock g s' hstep => exact lockInv_unlockStep _ g _ hstep ih

/-- Claim C2: in every reachable state of a `Lock<T>` under any interleaving
of `lock()` and `unlock()` calls, at most one live (not-yet-unlocked) guard
exists, and the `locked` flag is `false` iff the waiting queue is empty and
no guard is live. -/
theorem lock_mutual_exclusion (s : LockState) (h : Reachable s) :
    s.live.length ≤ 1 ∧ (s.locked = false ↔ s.waiting = [] ∧ s.live = []) := by
  obtain ⟨hcase, _, _⟩ := lockInv_reachable s h
  rcases hcase with ⟨h1, g, h2⟩ | ⟨h1, h2, h3⟩
  · rw [h1, h2]
    refine ⟨by simp, ?_, ?_⟩
    · intro hf; cases hf
    · rintro ⟨_, hf⟩; cases hf
  · rw [h1, h2, h3]
    simp

/-- Witness for `lock_mutual_exclusion` at the state reached by one `lock()`
call on a fresh `Lock`. -/
theorem lock_mutual_exclusion_witness :
    (lockStep initState).live.length ≤ 1 ∧
      ((lockStep initState).locked = false ↔
        (lockStep initState).waiting = [] ∧ (lockStep initState).live = []) :=
  lock_mutual_exclusion (lockStep initState)
    (Reachable.step Reachable.init (LockTrans.lock initState))

/-- Claim C3: grants follow strict FIFO order.  In every reachable state the
grant history followed by the waiting queue is strictly increasing in arrival
order (so pending acquisitions resolve in the order of their `lock()` calls
and a newly arriving caller never overtakes a queued waiter), and the
hand-off in `unlock()` pops exactly the head waiter, grants it next, and
keeps `locked` true. -/
theorem lock_fifo_fairness (s : LockState) (h : Reachable s) :
    List.Chain' (· < ·) (s.granted ++ s.waiting) ∧
    ∀ (g w : Nat) (rest : List Nat) (s' : LockState),
      s.waiting = w :: rest → unlockStep s g = some s' →
      s'.locked = true ∧ s'.granted = s.granted ++ [w] ∧ s'.waiting = rest := by
  obtain ⟨hcase, hchain, _⟩ := lockInv_reachable s h
  refine ⟨hchain, ?_⟩
  intro g w rest s' hw hstep
  rw [unlockStep] at hstep
  by_cases hg : g ∈ s.live
  · rw [if_pos hg, hw] at hstep
    injection hstep with hstep
    subst hstep
    have hlocked : s.locked = true := by
      rcases hcase with ⟨h1, _⟩ | ⟨_, h2, _⟩
      · exact h1
      · rw [h2] at hg; cases hg
    exact ⟨hlocked, rfl, rfl⟩
  · rw [if_neg hg] at hstep
    cases hstep

/-- Witness for `lock_fifo_fairness` at the state reached by two `lock()`
calls on a fresh `Lock` (one holder, one queued waiter). -/
theorem lock_fifo_fairness_witness :
    List.Chain' (· < ·)
      ((lockStep (lockStep initState)).granted ++ (lockStep (lockStep initState)).waiting) ∧
    ∀ (g w : Nat) (rest : List Nat) (s' : LockState),
      (lockStep (lockStep initState)).waiting = w :: rest →
      unlockStep (lockStep (lockStep initState)) g = some s' →
      s'.locked = true ∧
        s'.granted = (lockStep (lockStep initState)).granted ++ [w] ∧ s'.waiting = rest :=
  lock_fifo_fairness (lockStep (lockStep initState))
    (Reachable.step (Reachable.step Reachable.init (LockTrans.lock initState))
      (LockTrans.lock (lockStep initState)))

/-- Claim C7: a `Locked` guard is one-shot.  Before the first `unlock`, the
`value` accessor returns the protected value; `unlock()` succeeds once and
yields the inert guard, on which both reading `value` and calling `unlock()`
again raise the usage error. -/
theorem locked_guard_one_shot {T : Type} (v : T) :
    (Locked.mk (some v)).value = Except.ok v ∧
    (Locked.mk (some v)).unlock = Except.ok (Locked.mk none) ∧
    (Locked.mk (none : Option T)).value = Except.error lockedErrMsg ∧
    (Locked.mk (none : Option T)).unlock = Except.error lockedErrMsg :=
  ⟨rfl, rfl, rfl, rfl⟩

/-! ## random.ts: `unique` -/

/-- Acquiring the dedup-set mutex from the point of view of one call:
the protocol state is whether the lock is held by this critical section
together with a count of `unlock()` calls issued so far.  Acquiring while
already held would deadlock the call (`none`). -/
def acquireGuard (st : Bool × Nat) : Option (Bool × Nat) :=
  if st.1 then none else some (true, st.2)

/-- Releasing the dedup-set mutex: releasing without holding the lock is the
guard usage error (`none`, compare `Locked.unlock` on an inert guard);
a successful release increments the release count. -/
def releaseGuard (st : Bool × Nat) : Option (Bool × Nat) :=
  if st.1 then some (false, st.2 + 1) else none

/-- One iteration of the retry loop in the function `wrapped` returned by
`unique(func, ...args)`, for the candidate `v` just produced by
`func(...args)`: acquire the lock on the `values` set; on a fresh value
insert it, release and return it (`some v`); on a duplicate release and keep
running (`none`).  The source contains no suspension point between acquiring
and releasing, so each iteration's critical section is one atomic step of any
interleaving of concurrent calls. -/
def wrappedIter {α : Type} [DecidableEq α] (st : Bool × Nat) (seen : List α) (v : α) :
    Option ((Bool × Nat) × List α × Option α) := do
  let st1 ← acquireGuard st
  if v ∈ seen then
    let st2 ← releaseGuard st1
    some (st2, seen, none)
  else
    let st2 ← releaseGuard st1
    some (st2, v :: seen, some v)

theorem wrappedIter_eq {α : Type} [DecidableEq α] (n : Nat) (seen : List α) (v : α) :
    wrappedIter (false, n) seen v =
      some ((false, n + 1), if v ∈ seen then (seen, none) else (v :: seen, some v)) := by
  by_cases hv : v ∈ seen <;> simp [wrappedIter, acquireGuard, releaseGuard, hv]

/-- The serialized sequence of critical sections executed against one
`unique` instance: `cands` is the sequence of candidate values produced by
`func`, in the order their critical sections run; the accumulator carries the
protocol state, the protected `values` set and the list of values returned so
far. -/
def uniqueRunAux {α : Type} [DecidableEq α] :
    (Bool × Nat) → List α → List α → List α → Option ((Bool × Nat) × List α × List α)
  | st, seen, rets, [] => some (st, seen, rets)
  | st, seen, rets, v :: vs => do
      let r ← wrappedIter st seen v
      uniqueRunAux r.1 r.2.1 (rets ++ r.2.2.toList) vs

/-- A whole history of one `unique` instance, starting from the empty set
(`new Lock(new Set())`) with the lock free. -/
def uniqueRun {α : Type} [DecidableEq α] (cands : List α) :
    Option ((Bool × Nat) × List α × List α) :=
  uniqueRunAux (false, 0) [] [] cands

theorem uniqueRunAux_spec {α : Type} [DecidableEq α] (cands : List α) :
    ∀ (n : Nat) (seen rets : List α), rets.Nodup → (∀ r ∈ rets, r ∈ seen) →
      ∃ nf seenf retsf,
        uniqueRunAux (false, n) seen rets cands = some ((false, nf), seenf, retsf) ∧
        retsf.Nodup ∧ (∀ r ∈ retsf, r ∈ seenf) := by
  induction cands with
  | nil =>
    intro n seen rets h1 h2
    exact ⟨n, seen, rets, rfl, h1, h2⟩
  | cons v vs ih =>
    intro n seen rets h1 h2
    by_cases hv : v ∈ seen
    · have hrw : uniqueRunAux (false, n) seen rets (v :: vs)
          = uniqueRunAux (false, n + 1) seen rets vs := by
        simp [uniqueRunAux, wrappedIter_eq, hv]
      rw [hrw]
      exact ih (n + 1) seen rets h1 h2
    · have hrw : uniqueRunAux (false, n) seen rets (v :: vs)
          = uniqueRunAux (false, n + 1) (v :: seen) (rets ++ [v]) vs := by
        simp [uniqueRunAux, wrappedIter_eq, hv]
      rw [hrw]
      refine ih (n + 1) (v :: seen) (rets ++ [v]) ?_ ?_
      · have hvr : v ∉ rets := fun hr => hv (h2 v hr)
        simp [List.nodup_append, h1, hvr]
      · intro r hr
        rw [List.mem_append] at hr
        rcases hr with hr | hr
        · exact List.mem_cons_of_mem _ (h2 r hr)
        · have : r = v := by simpa using hr
          rw [this]
          exact List.mem_cons_self _ _

/-- Claim C4: for one function returned by `unique`, across all completed
calls (under any interleaving, serialized as the order `cands` in which the
atomic critical sections execute) no two returned values are equal, and every
returned value is a member of the protected `seen` set from the moment it is
returned. -/
theorem unique_returns_nodup {α : Type} [DecidableEq α] (cands : List α) :
    ∃ nf seenf retsf,
      uniqueRun cands = some ((false, nf), seenf, retsf) ∧
      retsf.Nodup ∧ (∀ r ∈ retsf, r ∈ seenf) := by
  exact uniqueRunAux_spec cands 0 [] [] List.nodup_nil (by intro r hr; cases hr)

/-- Claim C10: every iteration of the retry loop in `unique`, started with the
dedup-set lock free, completes its critical section without protocol
violation, releases the lock exactly once (release count goes from `0` to
`1`), and finishes with the lock not held — on the returning path and on the
duplicate-retry path alike. -/
theorem unique_releases_lock_each_iteration {α : Type} [DecidableEq α]
    (seen : List α) (v : α) :
    wrappedIter (false, 0) seen v =
      some ((false, 1), if v ∈ seen then (seen, none) else (v :: seen, some v)) :=
  wrappedIter_eq 0 seen v

/-! ## integer.ts -/

/-- Source regex literal `/^-?\d+$/` (`integerRegex`) as a whole-string
acceptor: an optional leading minus sign followed by one or more digits. -/
def integerRegexAccepts (s : List Char) : Bool :=
  match s with
  | [] => false
  | c :: rest =>
      if c = '-' then !rest.isEmpty && rest.all Char.isDigit
      else (c :: rest).all Char.isDigit

/-- Source regex literal `/^([1-9]\d*|0)$/` (`naturalRegex`) as a whole-string
acceptor. -/
def naturalRegexAccepts (s : List Char) : Bool :=
  match s with
  | [] => false
  | c :: rest => (('1' ≤ c && c ≤ '9') && rest.all Char.isDigit) || (c = '0' && rest.isEmpty)

/-- Source `isInt(text)`: `integerRegex.test(text)`. -/
def isInt (s : List Char) : Bool := integerRegexAccepts s

/-- Source `isNat(text)`: `naturalRegex.test(text)`. -/
def isNat (s : List Char) : Bool := naturalRegexAccepts s

/-- Numeric value of a digit character. -/
def digitVal (c : Char) : Nat := c.toNat - '0'.toNat

/-- JS `parseInt(s, 10)` on strings accepted by the integer regex: an optional
sign followed by base-10 digits read left to right.  (JS numbers are binary
floats, so on digit strings beyond 2^53 the real `parseInt` rounds; this
model is exact, as the surrounding claims are about the parsed integer.) -/
def jsParseInt (s : List Char) : Int :=
  match s with
  | [] => 0
  | c :: rest =>
      if c = '-' then -((rest.foldl (fun a d => 10 * a + digitVal d) 0 : Nat) : Int)
      else (((c :: rest).foldl (fun a d => 10 * a + digitVal d) 0 : Nat) : Int)

/-- A JS `string | number` argument. -/
inductive StrOrNum where
  | str (s : List Char)
  | num (x : ℚ)

/-- Source `parseIntStrict(num)`: a string is parsed with `parseInt(num, 10)`
only when the integer regex matches it whole, a number is passed through only
when `Number.isInteger(num)` holds, and anything else gives `undefined`. -/
def parseIntStrict : StrOrNum → Option ℚ
  | StrOrNum.str s => if integerRegexAccepts s then some ((jsParseInt s : ℤ) : ℚ) else none
  | StrOrNum.num x => if x.den = 1 then some x else none

/-- The mathematical base-10 value of a digit string, most significant digit
first: the specification's reading of an unsigned integer literal. -/
def decimalValue (ds : List Char) : Nat := Nat.ofDigits 10 ((ds.map digitVal).reverse)

/-- Specification-side value of a strict integer string: the digit value,
negated when the optional minus sign is present. -/
def specIntValue (s : List Char) : Int :=
  match s with
  | [] => 0
  | c :: rest => if c = '-' then -(decimalValue rest : Int) else (decimalValue (c :: rest) : Int)

theorem foldl_digits (ds : List Char) (a : Nat) :
    ds.foldl (fun acc d => 10 * acc + digitVal d) a
      = a * 10 ^ ds.length + Nat.ofDigits 10 ((ds.map digitVal).reverse) := by
  induction ds generalizing a with
  | nil => simp [Nat.ofDigits]
  | cons d t ih =>
    rw [List.foldl_cons, ih]
    simp only [List.map_cons, List.reverse_cons, Nat.ofDigits_append, Nat.ofDigits_singleton,
      List.length_reverse, List.length_map, List.length_cons, pow_succ]
    ring

theorem jsParseInt_eq_specIntValue (s : List Char) : jsParseInt s = specIntValue s := by
  cases s with
  | nil => rfl
  | cons c rest =>
    rw [jsParseInt, specIntValue]
    by_cases hc : c = '-'
    · rw [if_pos hc, if_pos hc]
      congr 1
      rw [foldl_digits]
      simp [decimalValue]
    · rw [if_neg hc, if_neg hc]
      rw [foldl_digits]
      simp [decimalValue]

theorem char_digit_ne_zero (c : Char) :
    ('1' ≤ c ∧ c ≤ '9') ↔ (c.isDigit = true ∧ c ≠ '0') := by
  have h1 : '1'.val.toBitVec.toNat = 49 := by decide
  have h9 : '9'.val.toBitVec.toNat = 57 := by decide
  have h0 : '0'.val.toNat = 48 := by decide
  have h48 : (UInt32.toBitVec 48).toNat = 48 := by decide
  have h57 : (UInt32.toBitVec 57).toNat = 57 := by decide
  have hcv : c.val.toNat = c.val.toBitVec.toNat := rfl
  simp only [Char.le_def, Char.isDigit, ge_iff_le, Bool.and_eq_true, decide_eq_true_eq,
    ne_eq, Char.ext_iff, UInt32.le_def, UInt32.ext_iff, BitVec.le_def, BitVec.toNat_eq,
    hcv, h1, h9, h0, h48, h57]
  omega

theorem isInt_iff (s : List Char) :
    isInt s = true ↔
      ∃ ds, ds ≠ [] ∧ (∀ c ∈ ds, c.isDigit = true) ∧ (s = ds ∨ s = '-' :: ds) := by
  cases s with
  | nil =>
    constructor
    · intro h
      cases h
    · rintro ⟨ds, hne, _, h | h⟩
      · exact absurd h.symm hne
      · cases h
  | cons c rest =>
    rw [isInt, integerRegexAccepts]
    by_cases hc : c = '-'
    · subst hc
      rw [if_pos rfl]
      constructor
      · intro h
        rw [Bool.and_eq_true, Bool.not_eq_true', List.isEmpty_eq_false, List.all_eq_true] at h
        exact ⟨rest, h.1, h.2, Or.inr rfl⟩
      · rintro ⟨ds, hne, hdig, h | h⟩
        · rw [← h] at hdig
          have hm : ('-' : Char).isDigit = true := hdig '-' (List.mem_cons_self _ _)
          exact absurd hm (by decide)
        · have hrd : rest = ds := by injection h
          subst hrd
          rw [Bool.and_eq_true, Bool.not_eq_true', List.isEmpty_eq_false, List.all_eq_true]
          exact ⟨hne, hdig⟩
    · rw [if_neg hc]
      constructor
      · intro h
        rw [List.all_eq_true] at h
        exact ⟨c :: rest, List.cons_ne_nil c rest, h, Or.inl rfl⟩
      · rintro ⟨ds, hne, hdig, h | h⟩
        · rw [h, List.all_eq_true]
          exact hdig
        · have hcm : c = '-' := by injection h
          exact absurd hcm hc

theorem isNat_iff (s : List Char) :
    isNat s = true ↔
      s = ['0'] ∨ (s ≠ [] ∧ (∀ c ∈ s, c.isDigit = true) ∧ s.head? ≠ some '0') := by
  cases s with
  | nil =>
    constructor
    · intro h
      cases h
    · rintro (h | ⟨hne, _, _⟩)
      · cases h
      · exact absurd rfl hne
  | cons c rest =>
    rw [isNat, naturalRegexAccepts]
    constructor
    · intro h
      simp only [Bool.or_eq_true, Bool.and_eq_true, decide_eq_true_eq] at h
      rcases h with ⟨⟨h1c, h9c⟩, hall⟩ | ⟨hc0, hemp⟩
      · right
        obtain ⟨hdigc, hne0⟩ := (char_digit_ne_zero c).1 ⟨h1c, h9c⟩
        refine ⟨List.cons_ne_nil c rest, ?_, ?_⟩
        · intro d hd
          rcases List.mem_cons.1 hd with rfl | hd
          · exact hdigc
          · exact (List.all_eq_true.1 hall) d hd
        · rw [List.head?_cons]
          intro hs
          exact hne0 (by injection hs)
      · have hr : rest = [] := List.isEmpty_iff.1 hemp
        subst hc0
        rw [hr]
        exact Or.inl rfl
    · rintro (h | ⟨hne, hdig, hhd⟩)
      · rw [List.cons.injEq] at h
        obtain ⟨hc, hr⟩ := h
        subst hc
        subst hr
        decide
      · rw [Bool.or_eq_true]
        left
        have hc0 : c ≠ '0' := by
          intro h
          exact hhd (by rw [List.head?_cons, h])
        have hdigc : c.isDigit = true := hdig c (List.mem_cons_self c rest)
        obtain ⟨h1, h9⟩ := (char_digit_ne_zero c).2 ⟨hdigc, hc0⟩
        have hall : rest.all Char.isDigit = true := by
          rw [List.all_eq_true]
          intro d hd
          exact hdig d (List.mem_cons_of_mem _ hd)
        simp [h1, h9, hall]

/-- Claim C9: `isInt` accepts exactly the whole-string matches of `-?\d+`;
`isNat` accepts exactly `"0"` and the digit sequences not starting with `0`;
and `parseIntStrict` on a string returns the base-10 integer value exactly
when `isInt` holds and the explicit no-value result (`undefined`) otherwise —
never a partial parse. -/
theorem integer_helpers_strict (s : List Char) :
    (isInt s = true ↔
       ∃ ds, ds ≠ [] ∧ (∀ c ∈ ds, c.isDigit = true) ∧ (s = ds ∨ s = '-' :: ds)) ∧
    (isNat s = true ↔
       s = ['0'] ∨ (s ≠ [] ∧ (∀ c ∈ s, c.isDigit = true) ∧ s.head? ≠ some '0')) ∧
    parseIntStrict (StrOrNum.str s) =
      (if isInt s = true then some ((specIntValue s : ℤ) : ℚ) else none) := by
  refine ⟨isInt_iff s, isNat_iff s, ?_⟩
  simp only [parseIntStrict, isInt, jsParseInt_eq_specIntValue]

end CopaCalo
